import Mathlib

/-!
Verification of the Wordle guessing agent (`my_agent.py`).

The Python class `WordleAgent` is shallowly embedded: its mutable instance
fields become the record `MyAgent.AgentState`, its methods become pure Lean
functions that take and return such a state, Python `float` scores are
modelled by `ℚ`, words are `List Char`, and the three feedback states keep
their numeric encoding (`0` absent, `1` correct, `-1` present-misplaced)
as `Int`.  Python exceptions (`ValueError` from `list.index` and
`np.argmax` on an empty sequence, `IndexError` from list indexing) are
modelled as explicit error results.  Out-of-range list reads that only
occur on inputs malformed with respect to the documented percept shape
(all sequences of length `word_length`) are modelled with `List.getD`
defaults; all theorems below are stated under the documented shape.
-/

set_option maxRecDepth 10000

namespace MyAgent

/-- A word is a list of characters (a Python `str` used as a sequence). -/
abbrev Word := List Char

/-- Result of one `AgentFunction` call: a returned word, Python's implicit
`None` return (taken when the candidate list is empty), or an uncaught
exception. -/
inductive AgentResult where
  | word (w : Word)
  | noneRet
  | err (msg : String)
deriving DecidableEq

/-- The mutable instance state of the Python class `WordleAgent`, plus the
`has_run` flag stored by the `run_once` decorator on `get_first_guess`
(an attribute of the wrapper function object, process-wide). -/
structure AgentState where
  dictionary : List Word
  dictionary_backup : List Word
  letters : List Char
  word_length : Nat
  num_guesses : Nat
  mode : String
  first_guess_index : Nat
  last_guess_counter : Nat
  has_run : Bool
deriving DecidableEq

/-- The constructor `WordleAgent.__init__`: `dictionary_backup` starts as a
copy of `dictionary`, `first_guess_index` and `last_guess_counter` start
at `0`, and `get_first_guess` has not run yet. -/
def WordleAgent.init (dictionary : List Word) (letters : List Char)
    (word_length num_guesses : Nat) (mode : String) : AgentState :=
  { dictionary := dictionary
    dictionary_backup := dictionary
    letters := letters
    word_length := word_length
    num_guesses := num_guesses
    mode := mode
    first_guess_index := 0
    last_guess_counter := 0
    has_run := false }

/-- Modelled from the spec: the external Feedback Decoder
`helper.letter_indices_to_word` (module `helper` is not part of the
repository source; §6 of the spec describes it as a pure function mapping
letter identifiers over the alphabet to the literal word).  Each index is
looked up in `letters`; an index that is not a valid position is mapped to
a placeholder character. -/
def letter_indices_to_word (letter_indexes : List Int) (letters : List Char) :
    Word :=
  letter_indexes.map (fun i => letters.getD i.toNat '?')

/-- Models `np.argmax` on a list of scores: the index of the first
occurrence of the maximum value, `none` on the empty list (where NumPy
raises `ValueError`). -/
def argmax : List ℚ → Option Nat
  | [] => none
  | x :: xs =>
    match argmax xs with
    | none => some 0
    | some j => if xs.getD j 0 ≤ x then some 0 else some (j + 1)

/-- Method `probability`: the number of words of the reduced dictionary
whose letter at position `pos` equals `char`, divided by the length of the
reduced dictionary.  (On an empty list Python raises
`ZeroDivisionError`; in `ℚ` the division yields `0`, and every theorem
about scores assumes a non-empty candidate list.) -/
def probability (backup : List Word) (char : Char) (pos : Nat) : ℚ :=
  (backup.countP (fun w => w.getD pos '?' == char) : ℚ) / (backup.length : ℚ)

/-- Method `entropy`: `p * (1 - p)` for the positional probability `p`. -/
def entropy (backup : List Word) (char : Char) (pos : Nat) : ℚ :=
  let p := probability backup char pos
  p * (1 - p)

/-- Method `score`: one pass over the word's positions accumulating the
entropy sum and the repeated-letter flag (`double_letter` is initialised
once before the loop and never cleared), then a `0.9` factor when the flag
is set. -/
def score (backup : List Word) (word : Word) : ℚ :=
  let r := (List.range word.length).foldl
    (fun (p : ℚ × Bool) i =>
      (p.1 + entropy backup (word.getD i '?') i,
       p.2 || decide (1 < word.count (word.getD i '?'))))
    (0, false)
  if r.2 then r.1 * (9 / 10) else r.1

/-- Method `calculate_scores`: the score of every word of the reduced
dictionary, in order. -/
def calculate_scores (st : AgentState) : List ℚ :=
  st.dictionary_backup.map (score st.dictionary_backup)

/-- Method `green_counter`: the number of `1` (correct) states in the
feedback. -/
def green_counter (letter_states : List Int) : Nat :=
  letter_states.count 1

/-- The per-position removal test of `reduce_guesses` for candidate `w`:
`g` is the guessed letter at the position, `c` the candidate's letter
there, `s` the feedback state.  A state other than `0`, `1`, `-1` matches
no branch of the Python `if`/`elif` chain and removes nothing. -/
def stateCond (in_english : Word) (g c : Char) (s : Int) (w : Word) : Bool :=
  if s == 0 then
    w.contains g && (in_english.count g == 1 || g == c)
  else if s == 1 then
    g != c
  else if s == -1 then
    !(w.contains g) || g == c
  else
    false

/-- Whether the inner position loop of `reduce_guesses` removes candidate
`w` (the loop `break`s at the first position whose condition fires, so the
candidate is removed exactly when some position fires). -/
def shouldRemove (in_english : Word) (letter_states : List Int) (w : Word) :
    Bool :=
  (List.range w.length).any (fun i =>
    stateCond in_english (in_english.getD i '?') (w.getD i '?')
      (letter_states.getD i 2) w)

/-- The outer loop of `reduce_guesses`: iterate over a frozen copy of the
candidate list and call `list.remove` (first occurrence by value) on the
live list for every candidate the position loop condemns. -/
def eraseLoop (p : Word → Bool) : List Word → List Word → List Word
  | [], backup => backup
  | w :: rest, backup => eraseLoop p rest (if p w then backup.erase w else backup)

/-- Method `reduce_guesses` with the guessed word already decoded: run the
erase loop over a copy of the candidate list. -/
def reduce_core (in_english : Word) (letter_states : List Int)
    (backup : List Word) : List Word :=
  eraseLoop (shouldRemove in_english letter_states) backup backup

/-- Method `reduce_guesses`: decode the previous guess through the
Feedback Decoder, then reduce the candidate list. -/
def reduce_guesses (letters : List Char) (letter_indexes : List Int)
    (letter_states : List Int) (backup : List Word) : List Word :=
  reduce_core (letter_indices_to_word letter_indexes letters) letter_states
    backup

/-- Method `get_first_guess` together with its `run_once` decorator: a
no-op once `has_run` is set; otherwise set `has_run` (the wrapper sets it
before calling the wrapped function) and cache the index of the first
maximal score over the current (at that moment: full) dictionary.  The
second component reports the `ValueError` that `np.argmax` raises on an
empty score list. -/
def get_first_guess (st : AgentState) : AgentState × Option String :=
  if st.has_run then (st, none)
  else
    let st1 := { st with has_run := true }
    match argmax (calculate_scores st1) with
    | some i => ({ st1 with first_guess_index := i }, none)
    | none => (st1, some "ValueError: attempt to get argmax of an empty sequence")

/-- Models Python `letter_states.index(0)`: the first index holding `0`,
or `none` where Python raises `ValueError`. -/
def indexOfZero : List Int → Option Nat
  | [] => none
  | s :: rest => if s == 0 then some 0 else (indexOfZero rest).map (· + 1)

/-- The per-word score of the `smart_guess` loop.  Faithful to the source:
`double_letter` is (re)bound to `False` at the top of the character loop,
so after the loop it only reflects the final character — the `0.1`
penalty applies exactly when the last character is a possible letter
occurring more than once in the word. -/
def smartScoreWord (possible_letters : List Char) (w : Word) : ℚ :=
  let r := w.foldl
    (fun (p : ℚ × Bool) c =>
      if possible_letters.contains c then
        (p.1 + 1, decide (1 < w.count c))
      else
        (p.1, false))
    (0, false)
  if r.2 then r.1 * (1 / 10) else r.1

/-- Method `smart_guess`: find the unresolved (grey) position, collect the
letters the current candidates put there, score the full dictionary and
return its first maximal-score word.  Errors model the `ValueError`s of
`list.index` (no `0` state) and of `np.argmax` on an empty dictionary. -/
def smart_guess (st : AgentState) (letter_states : List Int) :
    Except String Word :=
  match indexOfZero letter_states with
  | none => Except.error "ValueError: 0 is not in list"
  | some grey_pos =>
    let possible_letters := st.dictionary_backup.map (fun w => w.getD grey_pos '?')
    let scores := st.dictionary.map (smartScoreWord possible_letters)
    match argmax scores with
    | some i => Except.ok (st.dictionary.getD i [])
    | none => Except.error "ValueError: attempt to get argmax of an empty sequence"

/-- The combined guard of lines 109-111 of `AgentFunction`: easy mode,
more than two candidates, not the final allowed turn, and word-length
minus one greens in the last feedback.  (In the source this is two nested
`if`s; both fall through to the normal scoring path.) -/
def smartCond (st : AgentState) (guess_counter : Nat) (letter_states : List Int) :
    Bool :=
  st.mode == "easy" && decide (2 < st.dictionary_backup.length) &&
    !((guess_counter : Int) == (st.num_guesses : Int) - 1) &&
    ((green_counter letter_states : Int) == (st.word_length : Int) - 1)

/-- Lines 106-118 of `AgentFunction`: when candidates remain, either take
the stuck-position heuristic (under `smartCond`) or return the first
maximal-score candidate; with no candidates left the Python function falls
through and returns `None`. -/
def choosePath (st : AgentState) (guess_counter : Nat)
    (letter_states : List Int) : AgentResult × AgentState :=
  if 0 < st.dictionary_backup.length then
    if smartCond st guess_counter letter_states then
      match smart_guess st letter_states with
      | Except.ok w => (AgentResult.word w, st)
      | Except.error e => (AgentResult.err e, st)
    else
      match argmax (calculate_scores st) with
      | some mi => (AgentResult.word (st.dictionary_backup.getD mi []), st)
      | none =>
        (AgentResult.err "ValueError: attempt to get argmax of an empty sequence", st)
  else (AgentResult.noneRet, st)

/-- Lines 96-99 of `AgentFunction`: when the external guess counter
disagrees with the internal one, score the current candidates and
`remove` the first maximal-score word. -/
def desyncStep (st : AgentState) (guess_counter : Nat) :
    AgentState × Option String :=
  if guess_counter = st.last_guess_counter then (st, none)
  else
    match argmax (calculate_scores st) with
    | some mi =>
      ({ st with dictionary_backup :=
          st.dictionary_backup.erase (st.dictionary_backup.getD mi []) }, none)
    | none => (st, some "ValueError: attempt to get argmax of an empty sequence")

/-- Method `AgentFunction`: increment the internal counter, ensure the
opener is cached, serve the cached opener on turn 0 (after resetting the
candidate list), otherwise reduce the candidates with the feedback, apply
the desynchronisation correction, and pick the next guess. -/
def AgentFunction (st : AgentState) (guess_counter : Nat)
    (letter_indexes letter_states : List Int) : AgentResult × AgentState :=
  let st1 := { st with last_guess_counter := st.last_guess_counter + 1 }
  match get_first_guess st1 with
  | (st2, some e) => (AgentResult.err e, st2)
  | (st2, none) =>
    if guess_counter == 0 then
      let st3 := { st2 with last_guess_counter := 0,
                            dictionary_backup := st2.dictionary }
      match st3.dictionary_backup.get? st3.first_guess_index with
      | some w => (AgentResult.word w, st3)
      | none => (AgentResult.err "IndexError: list index out of range", st3)
    else
      let newBackup :=
        reduce_guesses st2.letters letter_indexes letter_states
          st2.dictionary_backup
      let st3 := { st2 with dictionary_backup := newBackup }
      match desyncStep st3 guess_counter with
      | (st4, some e) => (AgentResult.err e, st4)
      | (st4, none) => choosePath st4 guess_counter letter_states

/-- An index is a first maximum of a score list: no entry exceeds it and
every earlier entry is strictly below it. -/
def firstMaxAt (scores : List ℚ) (i : Nat) : Prop :=
  (∀ j < scores.length, scores.getD j 0 ≤ scores.getD i 0) ∧
    ∀ j < i, scores.getD j 0 < scores.getD i 0

/-- A concrete one-word agent state (strict mode, opener already cached)
used to instantiate theorems at a point. -/
def stTiny : AgentState :=
  { dictionary := [['A']]
    dictionary_backup := [['A']]
    letters := ['A']
    word_length := 1
    num_guesses := 3
    mode := "hard"
    first_guess_index := 0
    last_guess_counter := 0
    has_run := true }

/-- A concrete three-word agent state over two-letter words (easy mode,
opener already cached) used to instantiate the desynchronisation
theorem: feedback `[1, 0]` on guess `AB` reduces it to the single
candidate `AC`. -/
def stDesync : AgentState :=
  { dictionary := [['A','B'], ['A','C'], ['D','B']]
    dictionary_backup := [['A','B'], ['A','C'], ['D','B']]
    letters := ['A','B','C','D']
    word_length := 2
    num_guesses := 6
    mode := "easy"
    first_guess_index := 0
    last_guess_counter := 0
    has_run := true }

/-- A concrete agent state over four-letter words (easy mode, opener
already cached) that reaches the stuck-position heuristic with feedback
`[1, 1, 1, -1]` on guess `ABCA`: three candidates survive the reduction
and no feedback state is `0`. -/
def stStuck : AgentState :=
  { dictionary := [['A','B','C','B'], ['A','B','C','C'], ['A','B','C','D']]
    dictionary_backup := [['A','B','C','B'], ['A','B','C','C'], ['A','B','C','D']]
    letters := ['A','B','C','D']
    word_length := 4
    num_guesses := 5
    mode := "easy"
    first_guess_index := 0
    last_guess_counter := 0
    has_run := true }


theorem argmax_eq_some_of_ne_nil {l : List ℚ} (h : l ≠ []) : ∃ i, argmax l = some i := by
  cases l with
  | nil => exact absurd rfl h
  | cons x xs =>
    rw [argmax]
    cases argmax xs with
    | none => exact ⟨0, rfl⟩
    | some j =>
      dsimp only
      by_cases hle : xs.getD j 0 ≤ x
      · rw [if_pos hle]; exact ⟨0, rfl⟩
      · rw [if_neg hle]; exact ⟨j + 1, rfl⟩

theorem argmax_eq_none_of {l : List ℚ} (h : argmax l = none) : l = [] := by
  cases l with
  | nil => rfl
  | cons x xs =>
    exfalso
    rw [argmax] at h
    cases hxs : argmax xs with
    | none => rw [hxs] at h; cases h
    | some j =>
      rw [hxs] at h
      dsimp only at h
      by_cases hle : xs.getD j 0 ≤ x
      · rw [if_pos hle] at h; cases h
      · rw [if_neg hle] at h; cases h

theorem argmax_lt_length : ∀ {l : List ℚ} {i : Nat}, argmax l = some i → i < l.length := by
  intro l
  induction l with
  | nil => intro i h; cases h
  | cons x xs ih =>
    intro i h
    rw [argmax] at h
    cases hxs : argmax xs with
    | none =>
      rw [hxs] at h
      cases h
      simp
    | some j =>
      rw [hxs] at h
      dsimp only at h
      by_cases hle : xs.getD j 0 ≤ x
      · rw [if_pos hle] at h
        cases h
        simp
      · rw [if_neg hle] at h
        cases h
        have := ih hxs
        simpa using this

theorem argmax_is_max : ∀ {l : List ℚ} {i : Nat}, argmax l = some i →
    ∀ j < l.length, l.getD j 0 ≤ l.getD i 0 := by
  intro l
  induction l with
  | nil => intro i h; cases h
  | cons x xs ih =>
    intro i h j hj
    rw [argmax] at h
    cases hxs : argmax xs with
    | none =>
      rw [hxs] at h
      cases h
      have hnil : xs = [] := argmax_eq_none_of hxs
      subst hnil
      have hj0 : j = 0 := by simpa using Nat.lt_one_iff.mp (by simpa using hj)
      subst hj0
      simp
    | some j' =>
      rw [hxs] at h
      dsimp only at h
      by_cases hle : xs.getD j' 0 ≤ x
      · rw [if_pos hle] at h
        cases h
        cases j with
        | zero => simp
        | succ k =>
          simp only [List.getD_cons_succ, List.getD_cons_zero]
          have hk : k < xs.length := by simpa using hj
          exact le_trans (ih hxs k hk) hle
      · rw [if_neg hle] at h
        cases h
        cases j with
        | zero =>
          simp only [List.getD_cons_succ, List.getD_cons_zero]
          exact le_of_not_le hle
        | succ k =>
          simp only [List.getD_cons_succ]
          exact ih hxs k (by simpa using hj)

theorem argmax_is_first : ∀ {l : List ℚ} {i : Nat}, argmax l = some i →
    ∀ j < i, l.getD j 0 < l.getD i 0 := by
  intro l
  induction l with
  | nil => intro i h; cases h
  | cons x xs ih =>
    intro i h j hj
    rw [argmax] at h
    cases hxs : argmax xs with
    | none =>
      rw [hxs] at h
      cases h
      exact absurd hj (Nat.not_lt_zero j)
    | some j' =>
      rw [hxs] at h
      dsimp only at h
      by_cases hle : xs.getD j' 0 ≤ x
      · rw [if_pos hle] at h
        cases h
        exact absurd hj (Nat.not_lt_zero j)
      · rw [if_neg hle] at h
        cases h
        cases j with
        | zero =>
          simp only [List.getD_cons_succ, List.getD_cons_zero]
          exact lt_of_not_le hle
        | succ k =>
          simp only [List.getD_cons_succ]
          exact ih hxs k (by simpa using hj)

end MyAgent


namespace MyAgent
theorem getD_mem_of_lt {α : Type} {l : List α} {i : Nat} (d : α) (h : i < l.length) :
    l.getD i d ∈ l := by
  induction l generalizing i with
  | nil => cases h
  | cons x xs ih =>
    cases i with
    | zero => simp
    | succ k =>
      simp only [List.getD_cons_succ]
      exact List.mem_cons_of_mem x (ih (by simpa using h))

theorem eraseLoop_cons {p : Word → Bool} {x : Word} (hx : p x = false) :
    ∀ (l b : List Word), eraseLoop p l (x :: b) = x :: eraseLoop p l b := by
  intro l
  induction l with
  | nil => intro b; rfl
  | cons w rest ih =>
    intro b
    rw [eraseLoop, eraseLoop]
    by_cases hw : p w = true
    · rw [if_pos hw, if_pos hw]
      have hxw : (x == w) = false := by
        apply beq_eq_false_iff_ne.mpr
        intro hcontra
        rw [hcontra, hw] at hx
        cases hx
      rw [List.erase_cons, hxw]
      simp only [Bool.false_eq_true, if_false]
      exact ih (b.erase w)
    · rw [if_neg hw, if_neg hw]
      exact ih b

theorem eraseLoop_eq_filter (p : Word → Bool) :
    ∀ l : List Word, eraseLoop p l l = l.filter (fun w => !p w) := by
  intro l
  induction l with
  | nil => rfl
  | cons x xs ih =>
    rw [eraseLoop]
    by_cases hx : p x = true
    · rw [if_pos hx, List.erase_cons_head, ih, List.filter_cons]
      simp [hx]
    · have hx2 : p x = false := by simpa using hx
      rw [if_neg hx, eraseLoop_cons hx2, ih, List.filter_cons]
      simp [hx2]

theorem reduce_core_eq_filter (in_english : Word) (letter_states : List Int)
    (backup : List Word) :
    reduce_core in_english letter_states backup =
      backup.filter (fun w => !shouldRemove in_english letter_states w) :=
  eraseLoop_eq_filter _ backup

theorem eq_of_getD_eq : ∀ {l1 l2 : Word}, l1.length = l2.length →
    (∀ i < l1.length, l1.getD i '?' = l2.getD i '?') → l1 = l2 := by
  intro l1
  induction l1 with
  | nil =>
    intro l2 hlen _
    cases l2 with
    | nil => rfl
    | cons y ys => cases hlen
  | cons x xs ih =>
    intro l2 hlen h
    cases l2 with
    | nil => cases hlen
    | cons y ys =>
      have hx : x = y := by simpa using h 0 (by simp)
      have hxs : xs = ys := by
        apply ih (by simpa using hlen)
        intro i hi
        simpa using h (i + 1) (by simpa using hi)
      rw [hx, hxs]

theorem filter_beq_eq_singleton : ∀ {cs : List Word} {W : Word}, W ∈ cs → cs.Nodup →
    cs.filter (fun w => w == W) = [W] := by
  intro cs
  induction cs with
  | nil => intro W hW; cases hW
  | cons x xs ih =>
    intro W hW hnd
    rw [List.filter_cons]
    by_cases hx : x = W
    · subst hx
      simp only [beq_self_eq_true, if_true]
      have hnot : ∀ w ∈ xs, ¬((w == x) = true) := by
        intro w hw hcontra
        have hwx : w = x := by simpa using hcontra
        subst hwx
        exact (List.nodup_cons.mp hnd).1 hw
      rw [List.filter_eq_nil_iff.mpr hnot]
    · have hxs : W ∈ xs := by
        rcases List.mem_cons.mp hW with h1 | h2
        · exact absurd h1.symm hx
        · exact h2
      have hne : (x == W) = false := beq_eq_false_iff_ne.mpr hx
      rw [hne]
      simp only [Bool.false_eq_true, if_false]
      exact ih hxs (List.nodup_cons.mp hnd).2

end MyAgent

namespace MyAgent
theorem score_foldl_split (backup : List Word) (w : Word) :
    ∀ (l : List Nat) (a : ℚ) (b : Bool),
      l.foldl (fun (p : ℚ × Bool) i =>
        (p.1 + entropy backup (w.getD i '?') i,
         p.2 || decide (1 < w.count (w.getD i '?')))) (a, b) =
      (l.foldl (fun s i => s + entropy backup (w.getD i '?') i) a,
       l.foldl (fun acc i => acc || decide (1 < w.count (w.getD i '?'))) b) := by
  intro l
  induction l with
  | nil => intro a b; rfl
  | cons x xs ih =>
    intro a b
    simp only [List.foldl_cons]
    exact ih _ _

theorem score_sum_eq (backup : List Word) (w : Word) :
    ∀ (n : Nat) (a : ℚ),
      (List.range n).foldl (fun s i => s + entropy backup (w.getD i '?') i) a =
        a + ∑ i in Finset.range n, entropy backup (w.getD i '?') i := by
  intro n
  induction n with
  | zero => intro a; simp
  | succ n ih =>
    intro a
    rw [List.range_succ, List.foldl_append, ih, Finset.sum_range_succ]
    simp [add_assoc]

theorem score_or_eq (w : Word) :
    ∀ (n : Nat) (b : Bool),
      (List.range n).foldl
          (fun acc i => acc || decide (1 < w.count (w.getD i '?'))) b =
        (b || (List.range n).any (fun i => decide (1 < w.count (w.getD i '?')))) := by
  intro n
  induction n with
  | zero => intro b; simp
  | succ n ih =>
    intro b
    rw [List.range_succ, List.foldl_append, ih]
    simp [List.any_append, Bool.or_assoc]

theorem any_count_iff (w : Word) :
    (List.range w.length).any
        (fun i => decide (1 < w.count (w.getD i '?'))) = true ↔
      ∃ c ∈ w, 1 < w.count c := by
  rw [List.any_eq_true]
  constructor
  · rintro ⟨i, hi, hdec⟩
    have hi2 : i < w.length := List.mem_range.mp hi
    exact ⟨w.getD i '?', getD_mem_of_lt '?' hi2, of_decide_eq_true hdec⟩
  · rintro ⟨c, hc, hcount⟩
    obtain ⟨n, hlt, hn⟩ := List.mem_iff_getElem.mp hc
    refine ⟨n, List.mem_range.mpr hlt, ?_⟩
    have hget : w.getD n '?' = c := by
      rw [List.getD_eq_getElem w '?' hlt]
      exact hn
    rw [hget]
    exact decide_eq_true hcount

/-- Claim C8: the Word Scorer in the closed form of the spec: for every word and
candidate list, the loop-and-flag computation of `score` equals the sum
over positions of `p * (1 - p)` (with `p` the positional letter frequency
over the candidate list), times `0.9` exactly when the word repeats some
letter. -/
theorem score_spec (backup : List Word) (w : Word) (hne : backup ≠ []) :
    score backup w =
      (∑ i in Finset.range w.length,
          probability backup (w.getD i '?') i *
            (1 - probability backup (w.getD i '?') i)) *
        (if ∃ c ∈ w, 1 < w.count c then (9 : ℚ) / 10 else 1) := by
  have hent : (∑ i in Finset.range w.length, entropy backup (w.getD i '?') i) =
      ∑ i in Finset.range w.length,
        probability backup (w.getD i '?') i *
          (1 - probability backup (w.getD i '?') i) := by
    refine Finset.sum_congr rfl ?_
    intro i _
    rfl
  simp only [score]
  rw [score_foldl_split, score_sum_eq]
  dsimp only
  rw [score_or_eq]
  simp only [zero_add, Bool.false_or]
  by_cases hdb : (List.range w.length).any
      (fun i => decide (1 < w.count (w.getD i '?'))) = true
  · rw [if_pos hdb, if_pos ((any_count_iff w).mp hdb)]
    rw [hent]
  · have hdb2 : (List.range w.length).any
        (fun i => decide (1 < w.count (w.getD i '?'))) = false := by
      simpa using hdb
    rw [hdb2]
    simp only [Bool.false_eq_true, if_false]
    rw [if_neg (fun hc => hdb ((any_count_iff w).mpr hc))]
    rw [hent, mul_one]

theorem score_spec_witness :
    score [['A']] ['A'] =
      (∑ i in Finset.range (['A'] : Word).length,
          probability [['A']] ((['A'] : Word).getD i '?') i *
            (1 - probability [['A']] ((['A'] : Word).getD i '?') i)) *
        (if ∃ c ∈ (['A'] : Word), 1 < (['A'] : Word).count c then (9 : ℚ) / 10
         else 1) :=
  score_spec [['A']] ['A'] (by decide)

end MyAgent

namespace MyAgent
theorem getD_replicate_one {n i : Nat} (h : i < n) :
    (List.replicate n (1 : Int)).getD i 2 = 1 := by
  induction n generalizing i with
  | zero => cases h
  | succ m ih =>
    cases i with
    | zero => rfl
    | succ k =>
      rw [List.replicate_succ, List.getD_cons_succ]
      exact ih (by omega)

theorem shouldRemove_all_correct {W w : Word} (hlen : w.length = W.length) :
    (shouldRemove W (List.replicate W.length 1) w = false ↔ w = W) := by
  unfold shouldRemove
  rw [List.any_eq_false]
  constructor
  · intro h
    apply eq_of_getD_eq hlen
    intro i hi
    have hiW : i < W.length := hlen ▸ hi
    have := h i (List.mem_range.mpr hi)
    rw [getD_replicate_one hiW] at this
    simp only [stateCond] at this
    have h2 : W.getD i '?' = w.getD i '?' := by simpa using this
    exact h2.symm
  · intro h i hi
    subst h
    have hiW : i < w.length := List.mem_range.mp hi
    rw [getD_replicate_one (hlen ▸ hiW)]
    simp [stateCond]

/-- Claim C5: all-correct feedback for a candidate `W` leaves exactly `[W]`:
`reduce_guesses` with guessed word `W` and every state `1` keeps a
candidate exactly when it agrees with `W` at every position. -/
theorem reduce_all_correct_singleton (cs : List Word) (W : Word)
    (hW : W ∈ cs) (hlen : ∀ w ∈ cs, w.length = W.length) (hnd : cs.Nodup) :
    reduce_core W (List.replicate W.length 1) cs = [W] := by
  rw [reduce_core_eq_filter]
  have hcong : cs.filter (fun w => !shouldRemove W (List.replicate W.length 1) w) =
      cs.filter (fun w => w == W) := by
    apply List.filter_congr
    intro w hw
    by_cases hwW : w = W
    · subst hwW
      rw [(shouldRemove_all_correct (hlen w hw)).mpr rfl]
      simp
    · have hsr : shouldRemove W (List.replicate W.length 1) w = true := by
        cases hcase : shouldRemove W (List.replicate W.length 1) w
        · exact absurd ((shouldRemove_all_correct (hlen w hw)).mp hcase) hwW
        · rfl
      rw [hsr]
      simp [beq_eq_false_iff_ne.mpr hwW]
  rw [hcong]
  exact filter_beq_eq_singleton hW hnd

theorem reduce_all_correct_singleton_witness :
    reduce_core ['S','L','A','T','E']
        (List.replicate (['S','L','A','T','E'] : Word).length 1)
        [['C','R','A','N','E'], ['S','L','A','T','E'], ['T','R','A','I','N']] =
      [['S','L','A','T','E']] :=
  reduce_all_correct_singleton
    [['C','R','A','N','E'], ['S','L','A','T','E'], ['T','R','A','I','N']]
    ['S','L','A','T','E'] (by decide) (by decide) (by decide)

/-- Claim C7: the Candidate Reducer never grows the candidate list: the reduced list
is no longer than the input and every survivor was already present. -/
theorem reduce_monotone_shrink (letters : List Char)
    (letter_indexes letter_states : List Int) (backup : List Word) :
    (reduce_guesses letters letter_indexes letter_states backup).length ≤
        backup.length ∧
      ∀ w ∈ reduce_guesses letters letter_indexes letter_states backup,
        w ∈ backup := by
  unfold reduce_guesses
  rw [reduce_core_eq_filter]
  exact ⟨List.length_filter_le _ _, fun w hw => (List.mem_filter.mp hw).1⟩

/-- Claim C1, counterexample: the spec's worked example is wrong on the code: with guess `SLATE` and
feedback correct at position 0 and absent elsewhere, the reducer does not
leave `[SLATE]` (the absent rule removes `SLATE` itself, since it contains
the absent letters, each occurring once in the guess). -/
theorem reduce_example_not_singleton :
    reduce_core ['S','L','A','T','E'] [1, 0, 0, 0, 0]
        [['C','R','A','N','E'], ['S','L','A','T','E'], ['T','R','A','I','N']] ≠
      [['S','L','A','T','E']] := by decide

/-- Claim C1, amended: what the code actually produces on the spec's worked example: all
three words are removed and the candidate list is empty. -/
theorem reduce_example_empty :
    reduce_core ['S','L','A','T','E'] [1, 0, 0, 0, 0]
        [['C','R','A','N','E'], ['S','L','A','T','E'], ['T','R','A','I','N']] =
      [] := by decide

/-- Claim C2: the stuck-position scorer at the claim's failing input: the word `AAB`
with possible letters `[A]` scores `2` with no double-letter penalty
(`double_letter` is re-bound to `False` on every character, and the last
character `B` is not a possible letter), where the spec's scoring rule
demands `2 * 0.1`. -/
theorem smart_score_no_penalty_for_AAB :
    smartScoreWord ['A'] ['A', 'A', 'B'] = 2 := by
  simp [smartScoreWord, List.foldl, List.count, List.countP]
  norm_num

end MyAgent

namespace MyAgent
/-- Claim C4: the conservative absent rule, read off the `letter_states[i] == 0`
branch of `reduce_guesses`: removal requires the candidate to contain the
guessed letter; with the letter unique in the guess, containing it is also
sufficient; with the letter repeated in the guess, removal forces the
candidate's letter at the position to equal it, and a firing condition at
a position inside the candidate means the candidate is dropped by the
reducer. -/
theorem absent_rule (guess : Word) (letter_states : List Int) (w : Word)
    (cs : List Word) (i : Nat) (hs : letter_states.getD i 2 = 0) :
    (stateCond guess (guess.getD i '?') (w.getD i '?')
          (letter_states.getD i 2) w = true →
        w.contains (guess.getD i '?') = true)
    ∧ (guess.count (guess.getD i '?') = 1 →
        (stateCond guess (guess.getD i '?') (w.getD i '?')
            (letter_states.getD i 2) w = true ↔
          w.contains (guess.getD i '?') = true))
    ∧ (1 < guess.count (guess.getD i '?') →
        stateCond guess (guess.getD i '?') (w.getD i '?')
            (letter_states.getD i 2) w = true →
        w.getD i '?' = guess.getD i '?')
    ∧ (i < w.length →
        stateCond guess (guess.getD i '?') (w.getD i '?')
            (letter_states.getD i 2) w = true →
        w ∉ reduce_core guess letter_states cs) := by
  rw [hs]
  have hcond : ∀ (g c : Char), stateCond guess g c 0 w =
      (w.contains g && (guess.count g == 1 || g == c)) := by
    intro g c
    simp [stateCond]
  refine ⟨?_, ?_, ?_, ?_⟩
  · intro h
    rw [hcond] at h
    simp only [Bool.and_eq_true] at h
    exact h.1
  · intro hcount
    rw [hcond]
    simp only [Bool.and_eq_true, Bool.or_eq_true]
    constructor
    · intro h
      exact h.1
    · intro h
      exact ⟨h, Or.inl (beq_iff_eq.mpr hcount)⟩
  · intro hcount h
    rw [hcond] at h
    simp only [Bool.and_eq_true, Bool.or_eq_true] at h
    rcases h.2 with h1 | h2
    · have h3 : guess.count (guess.getD i '?') = 1 := by simpa using h1
      omega
    · have h4 : guess.getD i '?' = w.getD i '?' := by simpa using h2
      exact h4.symm
  · intro hi h hmem
    have hsr : shouldRemove guess letter_states w = true := by
      unfold shouldRemove
      apply List.any_eq_true.mpr
      refine ⟨i, List.mem_range.mpr hi, ?_⟩
      rw [hs]
      exact h
    rw [reduce_core_eq_filter] at hmem
    have := (List.mem_filter.mp hmem).2
    rw [hsr] at this
    cases this

theorem absent_rule_witness :
    (stateCond ['A', 'B'] 'A' 'C' 0 ['C', 'A'] = true ↔
        List.contains ['C', 'A'] 'A' = true) ∧
      ['C', 'A'] ∉ reduce_core ['A', 'B'] [0, 0] [['C', 'A']] :=
  have h := absent_rule ['A', 'B'] [0, 0] ['C', 'A'] [['C', 'A']] 0 (by decide)
  ⟨h.2.1 (by decide), h.2.2.2 (by decide) (by decide)⟩

end MyAgent

namespace MyAgent
theorem get_first_guess_of_run {st : AgentState} (hrun : st.has_run = true) :
    get_first_guess st = (st, none) := by
  unfold get_first_guess
  rw [if_pos hrun]

theorem AgentFunction_turn0 (st : AgentState) (li ls : List Int)
    (hrun : st.has_run = true) :
    AgentFunction st 0 li ls =
      match st.dictionary.get? st.first_guess_index with
      | some w => (AgentResult.word w,
          { st with last_guess_counter := 0,
                    dictionary_backup := st.dictionary })
      | none => (AgentResult.err "IndexError: list index out of range",
          { st with last_guess_counter := 0,
                    dictionary_backup := st.dictionary }) := by
  have h1 : get_first_guess
      { st with last_guess_counter := st.last_guess_counter + 1 } =
      ({ st with last_guess_counter := st.last_guess_counter + 1 }, none) :=
    get_first_guess_of_run hrun
  simp only [AgentFunction, h1]
  rfl

theorem AgentFunction_later (st : AgentState) (gc : Nat) (li ls : List Int)
    (hrun : st.has_run = true) (hgc : gc ≠ 0) :
    AgentFunction st gc li ls =
      (match desyncStep
          { st with last_guess_counter := st.last_guess_counter + 1,
                    dictionary_backup :=
                      reduce_guesses st.letters li ls st.dictionary_backup }
          gc with
       | (st4, some e) => (AgentResult.err e, st4)
       | (st4, none) => choosePath st4 gc ls) := by
  have h1 : get_first_guess
      { st with last_guess_counter := st.last_guess_counter + 1 } =
      ({ st with last_guess_counter := st.last_guess_counter + 1 }, none) :=
    get_first_guess_of_run hrun
  have hgc2 : (gc == 0) = false := by
    simpa using hgc
  simp only [AgentFunction, h1, hgc2]
  rfl

theorem choosePath_snd (st : AgentState) (gc : Nat) (ls : List Int) :
    (choosePath st gc ls).2 = st := by
  unfold choosePath
  by_cases h0 : 0 < st.dictionary_backup.length
  · rw [if_pos h0]
    by_cases hsm : smartCond st gc ls = true
    · rw [if_pos hsm]
      cases smart_guess st ls <;> rfl
    · rw [if_neg hsm]
      cases argmax (calculate_scores st) <;> rfl
  · rw [if_neg h0]

theorem smart_guess_mem {st : AgentState} {ls : List Int} {w : Word}
    (h : smart_guess st ls = Except.ok w) : w ∈ st.dictionary := by
  unfold smart_guess at h
  cases hidx : indexOfZero ls with
  | none => rw [hidx] at h; cases h
  | some gp =>
    rw [hidx] at h
    dsimp only at h
    cases hA : argmax (st.dictionary.map
        (smartScoreWord (st.dictionary_backup.map (fun w => w.getD gp '?')))) with
    | none => rw [hA] at h; cases h
    | some i =>
      rw [hA] at h
      cases h
      have hi : i < st.dictionary.length := by
        have h2 := argmax_lt_length hA
        simpa using h2
      exact getD_mem_of_lt [] hi

theorem choosePath_word_mem (st : AgentState) (gc : Nat) (ls : List Int)
    (w : Word) :
    (smartCond st gc ls = true →
        (choosePath st gc ls).1 = AgentResult.word w → w ∈ st.dictionary)
    ∧ (smartCond st gc ls = false →
        (choosePath st gc ls).1 = AgentResult.word w →
          w ∈ st.dictionary_backup) := by
  constructor
  · intro hsm h
    unfold choosePath at h
    by_cases h0 : 0 < st.dictionary_backup.length
    · rw [if_pos h0, if_pos hsm] at h
      cases hg : smart_guess st ls with
      | ok w2 =>
        rw [hg] at h
        dsimp only at h
        cases h
        exact smart_guess_mem hg
      | error e => rw [hg] at h; cases h
    · rw [if_neg h0] at h
      cases h
  · intro hsm h
    unfold choosePath at h
    by_cases h0 : 0 < st.dictionary_backup.length
    · rw [if_pos h0, if_neg (by rw [hsm]; exact Bool.false_ne_true)] at h
      cases hA : argmax (calculate_scores st) with
      | some mi =>
        rw [hA] at h
        dsimp only at h
        cases h
        have hmi : mi < st.dictionary_backup.length := by
          have h2 := argmax_lt_length hA
          simpa [calculate_scores] using h2
        exact getD_mem_of_lt [] hmi
      | none => rw [hA] at h; cases h
    · rw [if_neg h0] at h
      cases h

end MyAgent

namespace MyAgent
/-- Claim C3: each returned guess is a word of the agent's dictionary or of its
current candidate list at the moment of return; on the stuck-position
heuristic path the guess comes from the full dictionary, on the normal
scoring path from the candidate list. -/
theorem agent_guess_membership (st : AgentState) (gc : Nat) (li ls : List Int)
    (w : Word) :
    ((AgentFunction st gc li ls).1 = AgentResult.word w →
        w ∈ (AgentFunction st gc li ls).2.dictionary ∨
          w ∈ (AgentFunction st gc li ls).2.dictionary_backup)
    ∧ (smartCond st gc ls = true →
        (choosePath st gc ls).1 = AgentResult.word w → w ∈ st.dictionary)
    ∧ (smartCond st gc ls = false →
        (choosePath st gc ls).1 = AgentResult.word w →
          w ∈ st.dictionary_backup) := by
  refine ⟨?_, (choosePath_word_mem st gc ls w).1, (choosePath_word_mem st gc ls w).2⟩
  intro h
  unfold AgentFunction at h ⊢
  dsimp only at h ⊢
  rcases hg : get_first_guess
      { st with last_guess_counter := st.last_guess_counter + 1 } with ⟨st2, e⟩
  rw [hg] at h
  cases e with
  | some msg => dsimp only at h; cases h
  | none =>
    try dsimp only at h ⊢
    by_cases hgc : (gc == 0) = true
    · rw [if_pos hgc] at h ⊢
      try dsimp only at h ⊢
      cases hq : st2.dictionary.get? st2.first_guess_index with
      | some w2 =>
        rw [hq] at h
        dsimp only at h ⊢
        cases h
        exact Or.inr (List.get?_mem hq)
      | none =>
        rw [hq] at h
        dsimp only at h
        cases h
    · rw [if_neg hgc] at h ⊢
      rcases hd : desyncStep
          { st2 with dictionary_backup :=
              reduce_guesses st2.letters li ls st2.dictionary_backup } gc
          with ⟨st4, e2⟩
      rw [hd] at h
      cases e2 with
      | some msg => dsimp only at h; cases h
      | none =>
        try dsimp only at h ⊢
        rw [choosePath_snd]
        by_cases hsm : smartCond st4 gc ls = true
        · exact Or.inl ((choosePath_word_mem st4 gc ls w).1 hsm h)
        · exact Or.inr ((choosePath_word_mem st4 gc ls w).2 (by simpa using hsm) h)

theorem agent_guess_membership_witness :
    (['A'] ∈ (AgentFunction stTiny 0 [] []).2.dictionary ∨
        ['A'] ∈ (AgentFunction stTiny 0 [] []).2.dictionary_backup)
    ∧ ['A'] ∈ stTiny.dictionary_backup :=
  ⟨(agent_guess_membership stTiny 0 [] [] ['A']).1 (by decide),
   (agent_guess_membership stTiny 5 [] [] ['A']).2.2 (by decide) (by decide)⟩

end MyAgent

namespace MyAgent
theorem get?_eq_some_getD {α : Type} : ∀ (l : List α) (d : α) (n : Nat),
    n < l.length → l.get? n = some (l.getD n d) := by
  intro l
  induction l with
  | nil => intro d n h; cases h
  | cons x xs ih =>
    intro d n h
    cases n with
    | zero => rfl
    | succ k => exact ih d k (by simpa using h)

/-- Claim C6: the opener computation happens once per process: a state that has
not run it yet caches the index of the first maximal full-dictionary
score and sets the flag; a state that has run it is left unchanged; and a
turn-0 call returns the word at the cached index of the post-opener
state. -/
theorem opener_cached_once (dictionary : List Word) (letters : List Char)
    (wl ng : Nat) (mode : String) (st st2 : AgentState) (li ls : List Int)
    (hne : dictionary ≠ [])
    (hg : get_first_guess
        { st with last_guess_counter := st.last_guess_counter + 1 } =
      (st2, none))
    (hidx : st2.first_guess_index < st2.dictionary.length) :
    ((argmax (dictionary.map (score dictionary))).isSome = true
      ∧ get_first_guess (WordleAgent.init dictionary letters wl ng mode) =
          ({ WordleAgent.init dictionary letters wl ng mode with
              has_run := true
              first_guess_index :=
                (argmax (dictionary.map (score dictionary))).getD 0 }, none))
    ∧ (st.has_run = true → get_first_guess st = (st, none))
    ∧ (AgentFunction st 0 li ls).1 =
        AgentResult.word (st2.dictionary.getD st2.first_guess_index []) := by
  have hmapne : dictionary.map (score dictionary) ≠ [] := by
    simpa using hne
  obtain ⟨i, hi⟩ := argmax_eq_some_of_ne_nil hmapne
  refine ⟨⟨?_, ?_⟩, fun hrun => get_first_guess_of_run hrun, ?_⟩
  · rw [hi]; rfl
  · unfold get_first_guess
    rw [if_neg (by simp [WordleAgent.init])]
    dsimp only [WordleAgent.init, calculate_scores]
    rw [hi]
    dsimp only
    simp only [Option.getD_some]
  · unfold AgentFunction
    dsimp only
    rw [hg]
    dsimp only
    rw [get?_eq_some_getD st2.dictionary [] st2.first_guess_index hidx]
    rfl

theorem opener_cached_once_witness :
    ((argmax (([['A']] : List Word).map (score [['A']]))).isSome = true
      ∧ get_first_guess (WordleAgent.init [['A']] ['A'] 1 3 "hard") =
          ({ WordleAgent.init [['A']] ['A'] 1 3 "hard" with
              has_run := true
              first_guess_index :=
                (argmax (([['A']] : List Word).map (score [['A']]))).getD 0 },
            none))
    ∧ (stTiny.has_run = true → get_first_guess stTiny = (stTiny, none))
    ∧ (AgentFunction stTiny 0 [] []).1 =
        AgentResult.word
          (({ stTiny with last_guess_counter := 1 } : AgentState).dictionary.getD
            ({ stTiny with last_guess_counter := 1 } : AgentState).first_guess_index
            []) :=
  opener_cached_once [['A']] ['A'] 1 3 "hard" stTiny
    { stTiny with last_guess_counter := 1 } [] [] (by decide) (by decide)
    (by decide)

end MyAgent

namespace MyAgent
theorem desyncStep_ne (st3 : AgentState) (gc : Nat)
    (hne : gc ≠ st3.last_guess_counter) {mi : Nat}
    (hmi : argmax (calculate_scores st3) = some mi) :
    desyncStep st3 gc =
      ({ st3 with dictionary_backup :=
          st3.dictionary_backup.erase (st3.dictionary_backup.getD mi []) },
        none) := by
  unfold desyncStep
  rw [if_neg hne, hmi]

theorem desyncStep_eq (st3 : AgentState) (gc : Nat)
    (heq : gc = st3.last_guess_counter) :
    desyncStep st3 gc = (st3, none) := by
  unfold desyncStep
  rw [if_pos heq]

/-- Claim C9: on a later turn with the external counter out of step with the
just-incremented internal counter, the agent erases from the reduced
candidate list exactly its first maximal-score member (one word) before
choosing a guess; with the counters in step the reduced list is kept
whole. -/
theorem desync_removes_first_max (st : AgentState) (gc : Nat)
    (li ls : List Int) (hrun : st.has_run = true) (hgc : gc ≠ 0) :
    ((gc ≠ st.last_guess_counter + 1 →
        reduce_guesses st.letters li ls st.dictionary_backup ≠ [] →
        ((argmax ((reduce_guesses st.letters li ls st.dictionary_backup).map
              (score (reduce_guesses st.letters li ls st.dictionary_backup)))).isSome
            = true
          ∧ (AgentFunction st gc li ls).2.dictionary_backup =
              (reduce_guesses st.letters li ls st.dictionary_backup).erase
                ((reduce_guesses st.letters li ls st.dictionary_backup).getD
                  ((argmax ((reduce_guesses st.letters li ls
                      st.dictionary_backup).map
                    (score (reduce_guesses st.letters li ls
                      st.dictionary_backup)))).getD 0) [])
          ∧ ((AgentFunction st gc li ls).2.dictionary_backup).length =
              (reduce_guesses st.letters li ls st.dictionary_backup).length - 1
          ∧ firstMaxAt
              ((reduce_guesses st.letters li ls st.dictionary_backup).map
                (score (reduce_guesses st.letters li ls st.dictionary_backup)))
              ((argmax ((reduce_guesses st.letters li ls
                  st.dictionary_backup).map
                (score (reduce_guesses st.letters li ls
                  st.dictionary_backup)))).getD 0)))
      ∧ (gc = st.last_guess_counter + 1 →
          (AgentFunction st gc li ls).2.dictionary_backup =
            reduce_guesses st.letters li ls st.dictionary_backup)) := by
  have hAF := AgentFunction_later st gc li ls hrun hgc
  constructor
  · intro hde hRne
    have hmapne : (reduce_guesses st.letters li ls st.dictionary_backup).map
        (score (reduce_guesses st.letters li ls st.dictionary_backup)) ≠ [] := by
      simpa using hRne
    obtain ⟨mi, hmi⟩ := argmax_eq_some_of_ne_nil hmapne
    have hmilt : mi < (reduce_guesses st.letters li ls st.dictionary_backup).length := by
      have h2 := argmax_lt_length hmi
      simpa using h2
    have hmem : (reduce_guesses st.letters li ls st.dictionary_backup).getD mi [] ∈
        reduce_guesses st.letters li ls st.dictionary_backup :=
      getD_mem_of_lt [] hmilt
    have hmi2 : argmax (calculate_scores
        { st with last_guess_counter := st.last_guess_counter + 1
                  dictionary_backup :=
                    reduce_guesses st.letters li ls st.dictionary_backup }) =
        some mi := hmi
    have hne2 : gc ≠ ({ st with
        last_guess_counter := st.last_guess_counter + 1
        dictionary_backup :=
          reduce_guesses st.letters li ls st.dictionary_backup } :
          AgentState).last_guess_counter := by
      simpa using hde
    have hbackup : (AgentFunction st gc li ls).2.dictionary_backup =
        (reduce_guesses st.letters li ls st.dictionary_backup).erase
          ((reduce_guesses st.letters li ls st.dictionary_backup).getD mi []) := by
      rw [hAF, desyncStep_ne _ gc hne2 hmi2]
      dsimp only
      rw [choosePath_snd]
    refine ⟨by rw [hmi]; rfl, ?_, ?_, ?_⟩
    · rw [hmi]
      simp only [Option.getD_some]
      exact hbackup
    · rw [hbackup]
      rw [List.length_erase_of_mem hmem]
    · rw [hmi]
      simp only [Option.getD_some]
      exact ⟨argmax_is_max hmi, argmax_is_first hmi⟩
  · intro heq
    have heq2 : gc = ({ st with
        last_guess_counter := st.last_guess_counter + 1
        dictionary_backup :=
          reduce_guesses st.letters li ls st.dictionary_backup } :
          AgentState).last_guess_counter := by
      simpa using heq
    rw [hAF, desyncStep_eq _ gc heq2]
    dsimp only
    rw [choosePath_snd]

theorem desync_removes_first_max_witness :
    ((argmax (([['A','C']] : List Word).map (score [['A','C']]))).isSome = true
      ∧ (AgentFunction stDesync 2 [0, 1] [1, 0]).2.dictionary_backup =
          ([['A','C']] : List Word).erase
            (([['A','C']] : List Word).getD
              ((argmax (([['A','C']] : List Word).map
                (score [['A','C']]))).getD 0) [])
      ∧ ((AgentFunction stDesync 2 [0, 1] [1, 0]).2.dictionary_backup).length =
          ([['A','C']] : List Word).length - 1
      ∧ firstMaxAt (([['A','C']] : List Word).map (score [['A','C']]))
          ((argmax (([['A','C']] : List Word).map (score [['A','C']]))).getD 0)) :=
  (desync_removes_first_max stDesync 2 [0, 1] [1, 0] (by decide) (by decide)).1
    (by decide) (by decide)

end MyAgent

namespace MyAgent
theorem indexOfZero_mem : ∀ {ls : List Int} {i : Nat},
    indexOfZero ls = some i → (0 : Int) ∈ ls := by
  intro ls
  induction ls with
  | nil => intro i h; cases h
  | cons s rest ih =>
    intro i h
    rw [indexOfZero] at h
    by_cases hs : (s == 0) = true
    · have hs2 : s = 0 := by simpa using hs
      simp [hs2]
    · rw [if_neg hs] at h
      cases hj : indexOfZero rest with
      | none => rw [hj] at h; cases h
      | some j => exact List.mem_cons_of_mem _ (ih hj)

theorem indexOfZero_none : ∀ {ls : List Int}, (0 : Int) ∉ ls →
    indexOfZero ls = none := by
  intro ls
  induction ls with
  | nil => intro h; rfl
  | cons s rest ih =>
    intro h
    rw [indexOfZero]
    have hs : (s == 0) = false := by
      apply beq_eq_false_iff_ne.mpr
      intro hc
      exact h (by simp [hc])
    rw [if_neg (by rw [hs]; exact Bool.false_ne_true)]
    rw [ih (fun hr => h (List.mem_cons_of_mem _ hr))]
    rfl

/-- Claim C10: the stuck-position lookup needs an absent state: `smart_guess`
returns a word only when some feedback state is `0`, and a turn that
reaches the heuristic (easy mode, more than two reduced candidates, not
the final allowed turn, word-length minus one greens) with no `0` state
(for instance the single non-correct state being `-1`) makes
`AgentFunction` surface the `ValueError` of `letter_states.index(0)`
instead of returning a guess. -/
theorem stuck_requires_absent (st : AgentState) (gc : Nat) (li ls : List Int)
    (w : Word) (hrun : st.has_run = true) (hgc : gc ≠ 0)
    (hsync : gc = st.last_guess_counter + 1) :
    (smart_guess st ls = Except.ok w → (0 : Int) ∈ ls)
    ∧ (st.mode = "easy" →
        2 < (reduce_guesses st.letters li ls st.dictionary_backup).length →
        (gc : Int) ≠ (st.num_guesses : Int) - 1 →
        (green_counter ls : Int) = (st.word_length : Int) - 1 →
        (0 : Int) ∉ ls →
        (AgentFunction st gc li ls).1 =
          AgentResult.err "ValueError: 0 is not in list") := by
  constructor
  · intro h
    unfold smart_guess at h
    cases hidx : indexOfZero ls with
    | none => rw [hidx] at h; cases h
    | some gp => exact indexOfZero_mem hidx
  · intro hmode hlen hturn hgreens h0
    have hAF := AgentFunction_later st gc li ls hrun hgc
    have heq2 : gc = ({ st with
        last_guess_counter := st.last_guess_counter + 1
        dictionary_backup :=
          reduce_guesses st.letters li ls st.dictionary_backup } :
          AgentState).last_guess_counter := by
      simpa using hsync
    rw [hAF, desyncStep_eq _ gc heq2]
    dsimp only
    unfold choosePath
    rw [if_pos (by dsimp only; omega)]
    have hsmart : smartCond { st with
        last_guess_counter := st.last_guess_counter + 1
        dictionary_backup :=
          reduce_guesses st.letters li ls st.dictionary_backup } gc ls = true := by
      unfold smartCond
      dsimp only
      simp only [Bool.and_eq_true, beq_iff_eq, bne_iff_ne, decide_eq_true_eq]
      refine ⟨⟨⟨hmode, hlen⟩, ?_⟩, hgreens⟩
      simpa using hturn
    rw [if_pos hsmart]
    have hsg : smart_guess { st with
        last_guess_counter := st.last_guess_counter + 1
        dictionary_backup :=
          reduce_guesses st.letters li ls st.dictionary_backup } ls =
        Except.error "ValueError: 0 is not in list" := by
      unfold smart_guess
      rw [indexOfZero_none h0]
    rw [hsg]

theorem stuck_requires_absent_witness :
    (AgentFunction stStuck 1 [0, 1, 2, 0] [1, 1, 1, -1]).1 =
      AgentResult.err "ValueError: 0 is not in list" :=
  (stuck_requires_absent stStuck 1 [0, 1, 2, 0] [1, 1, 1, -1] [] (by decide)
      (by decide) (by decide)).2
    (by decide) (by decide) (by decide) (by decide) (by decide)

end MyAgent
